import Mathlib

/-!
Verification of the sampling and batch-generation core of
`idne/models/data_generator.py`.

The Python code is shallowly embedded over exact rationals:

* `RandomChoice` (weighted sampler): construction normalizes a weight
  vector, takes its cumulative sum and renormalizes so the last entry is 1;
  `get` performs `numpy.searchsorted(cdf, u, side='right')`, i.e. it counts
  the entries that are `≤ u`.
* `MultipleRandomChoice` (row-wise sampler): the matrix is first row-wise
  L1-normalized in place (`sklearn.preprocessing.normalize(mat, axis=1,
  norm='l1', copy=False)`); for each row the nonzero column indices become
  `choices` and the corresponding values become `probs`; an empty row gets
  the self-loop pair `choices = [i]`, `probs = [1]`.
* `generate_batches` / `async_batches`: randomness (uniform node draws,
  uniform samples in `[0,1)`, the shuffled index array) is made explicit as
  an input stream, so the generators become pure list producers.

Machine floats are modelled by `ℚ`; note that in `ℚ` division by zero is 0,
while in Python it would produce `inf`/`nan` — the safety theorem for the
row-wise sampler shows every weight vector actually passed to the weighted
sampler has positive sum, so this corner is never exercised.
-/

/-- A square weight matrix, row-major. -/
abbrev Mat := List (List ℚ)

/-- Cumulative sums, as `numpy.cumsum`: `cumsum [a,b,c] = [a, a+b, a+b+c]`. -/
def cumsum : List ℚ → List ℚ
  | [] => []
  | x :: xs => x :: (cumsum xs).map (fun y => x + y)

/-- `numpy.searchsorted(cdf, u, side='right')` on a sorted array: the
insertion index, i.e. the number of leading entries `≤ u`. -/
def searchsortedRight (cdf : List ℚ) (u : ℚ) : ℕ :=
  (cdf.takeWhile (fun c => c ≤ u)).length

/-- The state of a `RandomChoice` sampler: its cumulative distribution. -/
structure RandomChoice where
  cdf : List ℚ

/-- `RandomChoice.__init__(p)`: `p /= p.sum(); self.cdf = p.cumsum();
self.cdf /= self.cdf[-1]`. -/
def RandomChoice.init (p : List ℚ) : RandomChoice :=
  let q := p.map (fun x => x / p.sum)
  let c := cumsum q
  ⟨c.map (fun x => x / c.getLastD 0)⟩

/-- `RandomChoice.get()`, with the uniform sample `u ∈ [0,1)` made an
explicit argument: `self.cdf.searchsorted(u, side='right')`. -/
def RandomChoice.get (rc : RandomChoice) (u : ℚ) : ℕ :=
  searchsortedRight rc.cdf u

/-- Modelled from the spec: the claimed "lower_bound-style" search, returning
the index of the first cumulative-sum entry that is `≥ u`. -/
def specFirstGe (cdf : List ℚ) (u : ℚ) : ℕ :=
  (cdf.takeWhile (fun c => c < u)).length

/-- One row of `sklearn.preprocessing.normalize(·, norm='l1')`: divide by the
sum of absolute values; a row of zero norm is left unchanged. -/
def l1NormalizeRow (row : List ℚ) : List ℚ :=
  let s := (row.map (fun x => |x|)).sum
  if s = 0 then row else row.map (fun x => x / s)

/-- The row-normalized transition matrix built by
`MultipleRandomChoice.__init__`; since `copy=False`, this is also the value
the caller's matrix holds after construction (`eliminate_zeros` only drops
explicitly stored zeros and changes no entry). -/
def transitionProbs (M : Mat) : Mat := M.map l1NormalizeRow

/-- The entries of the caller's matrix after `MultipleRandomChoice.__init__`
returns: row-wise L1-normalized in place. -/
def matAfterInit (M : Mat) : Mat := transitionProbs M

/-- Column indices of the nonzero entries of a row, in increasing order —
what the row contributes to `transition_probs.nonzero()[1]`. -/
def rowSupport (row : List ℚ) : List ℕ :=
  (List.range row.length).filter (fun j => row.getD j 0 ≠ 0)

/-- `self.choices[i]`: the nonzero column indices of row `i` of the
normalized matrix, or the self-loop `[i]` when the row has none. -/
def mrcChoices (M : Mat) (i : ℕ) : List ℕ :=
  let row := (transitionProbs M).getD i []
  if rowSupport row = [] then [i] else rowSupport row

/-- The weight vector `probs[i]` handed to `RandomChoice`: the nonzero
values of row `i` of the normalized matrix, or `[1]` when the row has none. -/
def mrcProbs (M : Mat) (i : ℕ) : List ℚ :=
  let row := (transitionProbs M).getD i []
  if rowSupport row = [] then [1] else
    (rowSupport row).map (fun j => row.getD j 0)

/-- `MultipleRandomChoice.__getitem__(i)`, with the uniform sample made
explicit: `self.choices[i][self.rc[i].get()]`. -/
def mrcGet (M : Mat) (i : ℕ) (u : ℚ) : ℕ :=
  (mrcChoices M i).getD ((RandomChoice.init (mrcProbs M i)).get u) 0

/-- `numpy.tile(l, n)`: `n` copies of `l` concatenated. -/
def tile (l : List ℕ) (n : ℕ) : List ℕ := (List.replicate n l).flatten

/-- The random draws one iteration of `generate_batches` consumes:
`drawn` are the `batch_size` uniform source nodes, `us` the uniform samples
feeding the row sampler, `negs` the `batch_size * number_negative` uniform
negative targets, and `shuf` the shuffled `arange(len(batch_x))`. -/
structure BatchRandoms where
  drawn : List ℕ
  us : List ℚ
  negs : List ℕ
  shuf : List ℕ

/-- A yielded batch: `(batch_u, batch_v, batch_x)`. -/
abbrev Batch := List ℕ × List ℕ × List ℚ

/-- Numpy fancy indexing `xs[σ]`. -/
def applyPerm (σ : List ℕ) (xs : List α) (d : α) : List α :=
  σ.map (fun k => xs.getD k d)

/-- The body of one `generate_batches` iteration before the shuffle:
`batch_u = tile(drawn, number_negative+1)`; `batch_v[j] =
random_choice[batch_u[j]]` for `j < batch_size`, then the uniform negatives
are appended; `batch_x = hstack((ones(batch_size),
-ones(batch_size*number_negative)))`. -/
def makeBatchRaw (M : Mat) (numberNegative batchSize : ℕ) (r : BatchRandoms) :
    Batch :=
  let batchU := tile r.drawn (numberNegative + 1)
  let pos := (List.range batchSize).map
      (fun j => mrcGet M (batchU.getD j 0) (r.us.getD j 0))
  let batchV := pos ++ r.negs
  let batchX := List.replicate batchSize (1 : ℚ) ++
      List.replicate (batchSize * numberNegative) (-1 : ℚ)
  (batchU, batchV, batchX)

/-- One yielded batch: the three raw arrays, all indexed by the same
shuffled index array `shuind`. -/
def makeBatch (M : Mat) (numberNegative batchSize : ℕ) (r : BatchRandoms) :
    Batch :=
  let raw := makeBatchRaw M numberNegative batchSize r
  (applyPerm r.shuf raw.1 0, applyPerm r.shuf raw.2.1 0,
    applyPerm r.shuf raw.2.2 0)

/-- The loop `for i in range(number_iterations): yield …`, unrolled from
iteration index `t` with `n` iterations left. -/
def generateBatchesFrom (M : Mat) (numberNegative batchSize : ℕ)
    (r : ℕ → BatchRandoms) : ℕ → ℕ → List Batch
  | _, 0 => []
  | t, n + 1 =>
      makeBatch M numberNegative batchSize (r t) ::
        generateBatchesFrom M numberNegative batchSize r (t + 1) n

/-- `generate_batches(X, number_negative, number_iterations, batch_size)` as
the finite sequence of batches it yields, the random stream explicit. -/
def generateBatches (M : Mat) (numberNegative numberIterations batchSize : ℕ)
    (r : ℕ → BatchRandoms) : List Batch :=
  generateBatchesFrom M numberNegative batchSize r 0 numberIterations

/-- The `while current_batch:` loop of `async_batches`: the next element is
requested (`apply_async(it.__next__)`) before `current_batch` is yielded, and
its `StopIteration` surfaces only at the `get()` after the yield, so the last
element is still yielded before the wrapper returns. A batch is a nonempty
triple, hence always truthy. -/
def prefetchLoop (c : Batch) : List Batch → List Batch
  | [] => [c]
  | b :: rest => c :: prefetchLoop b rest

/-- `async_batches(X, number_negative, number_iterations, batch_size)`: pull
the first batch (returning at once if `StopIteration`), then run the
prefetch loop over the rest of the underlying generator. -/
def asyncBatches (M : Mat) (numberNegative numberIterations batchSize : ℕ)
    (r : ℕ → BatchRandoms) : List Batch :=
  match generateBatches M numberNegative numberIterations batchSize r with
  | [] => []
  | b :: rest => prefetchLoop b rest

/-! ### Helper lemmas -/

theorem prefetchLoop_eq (c : Batch) (l : List Batch) :
    prefetchLoop c l = c :: l := by
  induction l generalizing c with
  | nil => rfl
  | cons b rest ih => simp [prefetchLoop, ih]

theorem generateBatchesFrom_length (M : Mat) (nn bs : ℕ) (r : ℕ → BatchRandoms) :
    ∀ n t, (generateBatchesFrom M nn bs r t n).length = n
  | 0, _ => rfl
  | n + 1, t => by
      simp [generateBatchesFrom, generateBatchesFrom_length M nn bs r n (t + 1)]

theorem absSum_nonneg (row : List ℚ) : 0 ≤ (row.map (fun x => |x|)).sum := by
  apply List.sum_nonneg
  intro x hx
  obtain ⟨y, _, rfl⟩ := List.mem_map.mp hx
  exact abs_nonneg y

theorem absSum_eq_zero {row : List ℚ} (h : (row.map (fun x => |x|)).sum = 0) :
    ∀ x ∈ row, x = 0 := by
  induction row with
  | nil => simp
  | cons a t ih =>
      simp only [List.map_cons, List.sum_cons] at h
      have ha : 0 ≤ |a| := abs_nonneg a
      have ht : 0 ≤ (t.map (fun x => |x|)).sum := absSum_nonneg t
      have ha0 : |a| = 0 := by linarith
      have ht0 : (t.map (fun x => |x|)).sum = 0 := by linarith
      intro x hx
      rcases List.mem_cons.mp hx with rfl | hx
      · exact abs_eq_zero.mp ha0
      · exact ih ht0 x hx

theorem map_div_eq_self {s : ℚ} (hs1 : s ≠ 1) {row : List ℚ}
    (h : row.map (fun x => x / s) = row) : ∀ x ∈ row, x = 0 := by
  induction row with
  | nil => simp
  | cons a t ih =>
      simp only [List.map_cons, List.cons.injEq] at h
      have ha : a = 0 := by
        have h1 := h.1
        by_cases hs0 : s = 0
        · rw [hs0, div_zero] at h1
          exact h1.symm
        · rw [div_eq_iff hs0] at h1
          have : a * (s - 1) = 0 := by ring_nf; linarith [h1]
          rcases mul_eq_zero.mp this with h2 | h2
          · exact h2
          · exact absurd (by linarith : s = 1) hs1
      intro x hx
      rcases List.mem_cons.mp hx with h2 | h2
      · rw [h2]; exact ha
      · exact ih h.2 x h2

theorem l1NormalizeRow_eq_self_iff (row : List ℚ) :
    l1NormalizeRow row = row ↔
      (row.map (fun x => |x|)).sum = 0 ∨ (row.map (fun x => |x|)).sum = 1 := by
  unfold l1NormalizeRow
  by_cases hs : (row.map (fun x => |x|)).sum = 0
  · simp [hs]
  · simp only [hs, if_false, false_or]
    constructor
    · intro h
      by_contra hs1
      have hall := map_div_eq_self hs1 h
      apply hs
      apply List.sum_eq_zero
      intro x hx
      obtain ⟨y, hy, rfl⟩ := List.mem_map.mp hx
      simp [hall y hy]
    · intro h1
      rw [h1]
      simp

theorem map_fix_iff (f : List ℚ → List ℚ) (M : Mat) :
    M.map f = M ↔ ∀ row ∈ M, f row = row := by
  induction M with
  | nil => simp
  | cons a t ih =>
      simp only [List.map_cons, List.cons.injEq, List.mem_cons]
      constructor
      · rintro ⟨h1, h2⟩ row (rfl | hr)
        · exact h1
        · exact ih.mp h2 row hr
      · intro h
        exact ⟨h a (Or.inl rfl), ih.mpr fun row hr => h row (Or.inr hr)⟩

theorem takeWhile_pred_congr {p q : ℚ → Bool} :
    ∀ l : List ℚ, (∀ x ∈ l, p x = q x) → l.takeWhile p = l.takeWhile q := by
  intro l
  induction l with
  | nil => simp
  | cons a t ih =>
      intro h
      have ha := h a (List.mem_cons_self a t)
      simp only [List.takeWhile_cons, ha]
      cases hq : q a with
      | false => simp
      | true =>
          simp only [if_true]
          rw [ih fun x hx => h x (List.mem_cons_of_mem a hx)]

/-! ### Claims C1–C4, C7 -/

theorem mrcGet_zeroOne : mrcGet [[0,1],[1,0]] 0 0 = 1 := by
  norm_num [mrcGet, mrcChoices, mrcProbs, transitionProbs, l1NormalizeRow,
    rowSupport, RandomChoice.init, RandomChoice.get, searchsortedRight, cumsum,
    List.range_succ]

/-- C1: the code under test, evaluated at `batch_size = 1`,
`number_negative = 3`, matrix `[[0,1],[1,0]]`, identity shuffle: the single
pair whose target was drawn from the row distribution (the positive pair)
comes out with label `+1` and the three uniform (negative) pairs with `-1` —
the function's own docstring, and the claim, demand `-1` for the positive
pair and `+1` for the negatives. -/
theorem claimC1_labels_flipped :
    makeBatch [[0,1],[1,0]] 3 1 ⟨[0], [0], [0,1,0], [0,1,2,3]⟩ =
      ([0,0,0,0], [1,0,1,0], [1,-1,-1,-1]) ∧
    (makeBatch [[0,1],[1,0]] 3 1
        ⟨[0], [0], [0,1,0], [0,1,2,3]⟩).2.2.count (-1) = 3 ∧
    (makeBatch [[0,1],[1,0]] 3 1
        ⟨[0], [0], [0,1,0], [0,1,2,3]⟩).2.2.count 1 = 1 := by
  norm_num [makeBatch, makeBatchRaw, tile, applyPerm, mrcGet_zeroOne,
    List.range_succ, List.replicate, List.count_cons]

/-- C2 (counterexample): the matrix `[[2,2],[0,0]]` is mutated by
`MultipleRandomChoice.__init__` — read back afterwards it differs from what
was passed in (its first row became `[1/2, 1/2]`). -/
theorem claimC2_counterexample :
    matAfterInit [[2,2],[0,0]] ≠ [[2,2],[0,0]] := by
  norm_num [matAfterInit, transitionProbs, l1NormalizeRow]

/-- C2 (amended): `MultipleRandomChoice.__init__` normalizes the matrix rows
in place (`copy=False`), so the matrix read after construction is the
row-wise L1 normalization of the input; it equals the input exactly when
every row has absolute sum 0 or 1. -/
theorem claimC2_inplace_normalization (M : Mat) :
    matAfterInit M = M ↔
      ∀ row ∈ M, (row.map (fun x => |x|)).sum = 0 ∨
        (row.map (fun x => |x|)).sum = 1 := by
  unfold matAfterInit transitionProbs
  rw [map_fix_iff]
  constructor
  · intro h row hr
    exact (l1NormalizeRow_eq_self_iff row).mp (h row hr)
  · intro h row hr
    exact (l1NormalizeRow_eq_self_iff row).mpr (h row hr)

/-- C3 (counterexample): for weights `[1,1]` the cdf is `[1/2, 1]`; at the
tie `u = 1/2` the first cumulative-sum entry `≥ u` is at index 0, but
`searchsorted(side='right')` returns index 1 — the claimed lower_bound
tie-break is wrong. -/
theorem claimC3_counterexample :
    (RandomChoice.init [1,1]).get (1/2) = 1 ∧
      specFirstGe (RandomChoice.init [1,1]).cdf (1/2) = 0 := by
  constructor
  · norm_num [RandomChoice.init, RandomChoice.get, searchsortedRight, cumsum]
  · norm_num [RandomChoice.init, specFirstGe, cumsum]

/-- C3 (amended): `RandomChoice.get` returns the index of the first
cumulative-sum entry strictly greater than `u` (`side='right'` /
upper_bound); whenever `u` equals no cdf entry this coincides with the index
of the first entry `≥ u`. -/
theorem claimC3_upper_bound (p : List ℚ) (u : ℚ)
    (h : ∀ c ∈ (RandomChoice.init p).cdf, c ≠ u) :
    (RandomChoice.init p).get u = specFirstGe (RandomChoice.init p).cdf u := by
  unfold RandomChoice.get searchsortedRight specFirstGe
  apply congrArg List.length
  apply takeWhile_pred_congr
  intro x hx
  have hne := h x hx
  simp only [decide_eq_decide]
  exact ⟨fun hle => lt_of_le_of_ne hle hne, le_of_lt⟩

theorem claimC3_witness :
    (∀ c ∈ (RandomChoice.init [1,3]).cdf, c ≠ (1/3 : ℚ)) ∧
      (RandomChoice.init [1,3]).get (1/3) =
        specFirstGe (RandomChoice.init [1,3]).cdf (1/3) :=
  ⟨by norm_num [RandomChoice.init, cumsum],
    claimC3_upper_bound [1,3] (1/3) (by norm_num [RandomChoice.init, cumsum])⟩

/-- C4: `async_batches` yields exactly the batches of `generate_batches`, in
order, with no partial or extra element: under the same explicit random
stream the two functions are equal. -/
theorem claimC4_prefetch_refines (M : Mat) (nn it bs : ℕ)
    (r : ℕ → BatchRandoms) :
    asyncBatches M nn it bs r = generateBatches M nn it bs r := by
  unfold asyncBatches
  cases h : generateBatches M nn it bs r with
  | nil => rfl
  | cons b rest => simp [prefetchLoop_eq]

/-- C7: `generate_batches` yields exactly `number_iterations` batches and
then terminates normally (the produced sequence is a finite list of that
length; in the list model there is nothing after it and no error). -/
theorem claimC7_iteration_count (M : Mat) (nn it bs : ℕ)
    (r : ℕ → BatchRandoms) :
    (generateBatches M nn it bs r).length = it :=
  generateBatchesFrom_length M nn bs r it 0

/-! ### Cdf and sampler lemmas -/

theorem cumsum_length : ∀ l : List ℚ, (cumsum l).length = l.length
  | [] => rfl
  | x :: xs => by simp [cumsum, cumsum_length xs]

theorem getLastD_map_add (a : ℚ) :
    ∀ (l : List ℚ) (d1 d2 : ℚ), l ≠ [] →
      (l.map (fun y => a + y)).getLastD d1 = a + l.getLastD d2
  | [], _, _, h => absurd rfl h
  | [x], d1, d2, _ => by simp
  | x :: y :: t, d1, d2, _ => by
      rw [List.map_cons, List.getLastD_cons, List.getLastD_cons,
        getLastD_map_add a (y :: t) _ _ (by simp)]

theorem cumsum_getLastD :
    ∀ {l : List ℚ}, l ≠ [] → ∀ d : ℚ, (cumsum l).getLastD d = l.sum := by
  intro l
  induction l with
  | nil => intro h; exact absurd rfl h
  | cons a t ih =>
      intro _ d
      cases t with
      | nil => simp [cumsum]
      | cons b t2 =>
          have hne : cumsum (b :: t2) ≠ [] := by
            apply List.ne_nil_of_length_pos
            rw [cumsum_length]
            simp
          rw [show cumsum (a :: b :: t2) =
              a :: (cumsum (b :: t2)).map (fun y => a + y) from rfl,
            List.getLastD_cons, getLastD_map_add a (cumsum (b :: t2)) _ d hne,
            ih (by simp) d, List.sum_cons]
          simp

theorem sum_mem_cumsum : ∀ {l : List ℚ}, l ≠ [] → l.sum ∈ cumsum l := by
  intro l
  induction l with
  | nil => intro h; exact absurd rfl h
  | cons a t ih =>
      intro _
      cases t with
      | nil => simp [cumsum]
      | cons b t2 =>
          have hmem := ih (by simp)
          rw [show cumsum (a :: b :: t2) =
              a :: (cumsum (b :: t2)).map (fun y => a + y) from rfl,
            List.sum_cons]
          exact List.mem_cons_of_mem a
            (List.mem_map_of_mem (fun y => a + y) hmem)

theorem sum_map_div (l : List ℚ) (s : ℚ) :
    (l.map (fun x => x / s)).sum = l.sum / s := by
  induction l with
  | nil => simp
  | cons a t ih => simp [ih, add_div]

theorem init_cdf_length (p : List ℚ) :
    (RandomChoice.init p).cdf.length = p.length := by
  simp [RandomChoice.init, cumsum_length]

theorem one_mem_init_cdf {p : List ℚ} (hp : p.sum ≠ 0) :
    (1 : ℚ) ∈ (RandomChoice.init p).cdf := by
  have hpne : p ≠ [] := by rintro rfl; simp at hp
  have hqne : p.map (fun x => x / p.sum) ≠ [] := by
    simp [List.map_eq_nil_iff, hpne]
  have hq : (p.map (fun x => x / p.sum)).sum = 1 := by
    rw [sum_map_div]; exact div_self hp
  have hlast : (cumsum (p.map (fun x => x / p.sum))).getLastD 0 = 1 := by
    rw [cumsum_getLastD hqne 0]; exact hq
  have hmem : (1 : ℚ) ∈ cumsum (p.map (fun x => x / p.sum)) := by
    have := sum_mem_cumsum hqne
    rwa [hq] at this
  have hdiv :
      (1 : ℚ) / ((cumsum (p.map (fun x => x / p.sum))).getLastD 0) ∈
        (RandomChoice.init p).cdf := by
    simp only [RandomChoice.init]
    exact List.mem_map_of_mem _ hmem
  rwa [hlast, div_one] at hdiv

theorem takeWhile_length_lt {l : List ℚ} {p : ℚ → Bool} {x : ℚ}
    (hx : x ∈ l) (hpx : ¬ p x = true) :
    (l.takeWhile p).length < l.length := by
  rcases Nat.lt_or_ge (l.takeWhile p).length l.length with h | h
  · exact h
  · exfalso
    have hle := (List.takeWhile_prefix (l := l) (p := p)).length_le
    have heq : l.takeWhile p = l :=
      (List.takeWhile_prefix _).eq_of_length (le_antisymm hle h)
    exact hpx (List.takeWhile_eq_self_iff.mp heq x hx)

theorem init_get_lt {p : List ℚ} {u : ℚ} (hp : p.sum ≠ 0) (hu : u < 1) :
    (RandomChoice.init p).get u < p.length := by
  have h1 : (1 : ℚ) ∈ (RandomChoice.init p).cdf := one_mem_init_cdf hp
  rw [← init_cdf_length p]
  unfold RandomChoice.get searchsortedRight
  apply takeWhile_length_lt h1
  simp only [decide_eq_true_eq]
  exact hu.not_le

theorem sum_pos_of_exists_pos {l : List ℚ} (h0 : ∀ x ∈ l, 0 ≤ x)
    (h1 : ∃ x ∈ l, 0 < x) : 0 < l.sum := by
  induction l with
  | nil => simp at h1
  | cons a t ih =>
      rw [List.sum_cons]
      have ha : 0 ≤ a := h0 a (List.mem_cons_self a t)
      have ht : 0 ≤ t.sum :=
        List.sum_nonneg fun x hx => h0 x (List.mem_cons_of_mem a hx)
      obtain ⟨x, hx, hxpos⟩ := h1
      rcases List.mem_cons.mp hx with rfl | hx
      · linarith
      · have := ih (fun y hy => h0 y (List.mem_cons_of_mem a hy)) ⟨x, hx, hxpos⟩
        linarith

/-! ### Row-sampler lemmas -/

theorem getD_map_div (l : List ℚ) (s : ℚ) (n : ℕ) :
    (l.map (fun x => x / s)).getD n 0 = l.getD n 0 / s := by
  induction l generalizing n with
  | nil => simp
  | cons a t ih =>
      cases n with
      | zero => simp
      | succ m => simpa using ih m

theorem getD_nonneg {l : List ℚ} (h : ∀ x ∈ l, 0 ≤ x) (n : ℕ) :
    0 ≤ l.getD n 0 := by
  rcases Nat.lt_or_ge n l.length with hn | hn
  · rw [List.getD_eq_getElem l 0 hn]
    exact h _ (List.getElem_mem hn)
  · rw [List.getD_eq_default l 0 hn]

theorem l1NormalizeRow_length (row : List ℚ) :
    (l1NormalizeRow row).length = row.length := by
  by_cases hs : (row.map (fun x => |x|)).sum = 0 <;> simp [l1NormalizeRow, hs]

theorem l1NormalizeRow_nil : l1NormalizeRow [] = [] := by
  simp [l1NormalizeRow]

theorem l1NormalizeRow_nonneg {row : List ℚ} (h : ∀ x ∈ row, 0 ≤ x) :
    ∀ x ∈ l1NormalizeRow row, 0 ≤ x := by
  by_cases hs : (row.map (fun x => |x|)).sum = 0
  · simpa [l1NormalizeRow, hs] using h
  · intro x hx
    simp only [l1NormalizeRow, hs, if_false] at hx
    obtain ⟨y, hy, rfl⟩ := List.mem_map.mp hx
    exact div_nonneg (h y hy) (absSum_nonneg row)

theorem transitionProbs_getD (M : Mat) (i : ℕ) :
    (transitionProbs M).getD i [] = l1NormalizeRow (M.getD i []) := by
  unfold transitionProbs
  rcases Nat.lt_or_ge i M.length with hi | hi
  · rw [List.getD_eq_getElem _ _ (by simpa using hi),
      List.getD_eq_getElem _ _ hi, List.getElem_map]
  · rw [List.getD_eq_default _ _ (by simpa using hi),
      List.getD_eq_default _ _ hi, l1NormalizeRow_nil]

theorem mem_rowSupport {row : List ℚ} {j : ℕ} :
    j ∈ rowSupport row ↔ j < row.length ∧ row.getD j 0 ≠ 0 := by
  unfold rowSupport
  simp [List.mem_filter, List.mem_range]

theorem getD_row_nonneg (M : Mat) (i : ℕ)
    (hM : ∀ row ∈ M, ∀ x ∈ row, 0 ≤ x) :
    ∀ x ∈ M.getD i [], 0 ≤ x := by
  rcases Nat.lt_or_ge i M.length with hi | hi
  · rw [List.getD_eq_getElem _ _ hi]
    exact hM _ (List.getElem_mem hi)
  · rw [List.getD_eq_default _ _ hi]
    simp

theorem mrcProbs_ne_nil (M : Mat) (i : ℕ) : mrcProbs M i ≠ [] := by
  by_cases hsup : rowSupport ((transitionProbs M).getD i []) = []
  · simp only [mrcProbs]
    rw [if_pos hsup]
    simp
  · simp only [mrcProbs]
    rw [if_neg hsup]
    simp only [ne_eq, List.map_eq_nil_iff]
    exact hsup

theorem mrcProbs_pos (M : Mat) (i : ℕ)
    (hM : ∀ row ∈ M, ∀ x ∈ row, 0 ≤ x) :
    ∀ x ∈ mrcProbs M i, 0 < x := by
  have hrow0 : ∀ x ∈ M.getD i [], 0 ≤ x := getD_row_nonneg M i hM
  have hnn : ∀ x ∈ (transitionProbs M).getD i [], 0 ≤ x := by
    rw [transitionProbs_getD]
    exact l1NormalizeRow_nonneg hrow0
  by_cases hsup : rowSupport ((transitionProbs M).getD i []) = []
  · intro x hx
    simp only [mrcProbs, hsup, if_true] at hx
    rw [List.mem_singleton.mp hx]
    norm_num
  · intro x hx
    simp only [mrcProbs, hsup, if_false] at hx
    obtain ⟨j, hj, rfl⟩ := List.mem_map.mp hx
    obtain ⟨hjlt, hjne⟩ := mem_rowSupport.mp hj
    exact lt_of_le_of_ne (getD_nonneg hnn j) (Ne.symm hjne)

theorem mrcProbs_sum_pos (M : Mat) (i : ℕ)
    (hM : ∀ row ∈ M, ∀ x ∈ row, 0 ≤ x) :
    0 < (mrcProbs M i).sum :=
  List.sum_pos _ (mrcProbs_pos M i hM) (mrcProbs_ne_nil M i)

theorem mrcChoices_length_eq (M : Mat) (i : ℕ) :
    (mrcChoices M i).length = (mrcProbs M i).length := by
  by_cases hsup : rowSupport ((transitionProbs M).getD i []) = []
  · simp only [mrcChoices, mrcProbs]
    rw [if_pos hsup, if_pos hsup]
    rfl
  · simp only [mrcChoices, mrcProbs]
    rw [if_neg hsup, if_neg hsup]
    simp

theorem mrcGet_mem (M : Mat) (i : ℕ) (u : ℚ)
    (hM : ∀ row ∈ M, ∀ x ∈ row, 0 ≤ x) (hu : u < 1) :
    mrcGet M i u ∈ mrcChoices M i := by
  unfold mrcGet
  have hlt : (RandomChoice.init (mrcProbs M i)).get u < (mrcChoices M i).length := by
    rw [mrcChoices_length_eq]
    exact init_get_lt (ne_of_gt (mrcProbs_sum_pos M i hM)) hu
  rw [List.getD_eq_getElem _ _ hlt]
  exact List.getElem_mem hlt

/-! ### Claims C5, C6, C9, C10 -/

theorem getD_eq_zero_of_zero {row : List ℚ} (h : ∀ x ∈ row, x = 0) (j : ℕ) :
    row.getD j 0 = 0 := by
  rcases Nat.lt_or_ge j row.length with hj | hj
  · rw [List.getD_eq_getElem _ _ hj]
    exact h _ (List.getElem_mem hj)
  · rw [List.getD_eq_default _ _ hj]

theorem rowSupport_eq_nil_of_zero {row : List ℚ} (h : ∀ x ∈ row, x = 0) :
    rowSupport row = [] := by
  unfold rowSupport
  rw [List.filter_eq_nil_iff]
  intro j _
  have hz := getD_eq_zero_of_zero h j
  rw [List.getD_eq_getElem?_getD] at hz
  simp [hz]

theorem l1NormalizeRow_of_zero {row : List ℚ} (h : ∀ x ∈ row, x = 0) :
    l1NormalizeRow row = row := by
  have hs : (row.map (fun x => |x|)).sum = 0 := by
    apply List.sum_eq_zero
    intro x hx
    obtain ⟨y, hy, rfl⟩ := List.mem_map.mp hx
    simp [h y hy]
  simp [l1NormalizeRow, hs]

theorem initOne_get {u : ℚ} (hu : u < 1) : (RandomChoice.init [1]).get u = 0 := by
  norm_num [RandomChoice.init, RandomChoice.get, searchsortedRight, cumsum,
    hu.not_le]

theorem mrcGet_zero_row (M : Mat) (i : ℕ) (u : ℚ) (hu : u < 1)
    (hzero : ∀ x ∈ M.getD i [], x = 0) : mrcGet M i u = i := by
  have hrow : (transitionProbs M).getD i [] = M.getD i [] := by
    rw [transitionProbs_getD, l1NormalizeRow_of_zero hzero]
  have hsup : rowSupport ((transitionProbs M).getD i []) = [] := by
    rw [hrow]
    exact rowSupport_eq_nil_of_zero hzero
  have hc : mrcChoices M i = [i] := by
    simp only [mrcChoices]
    rw [if_pos hsup]
  have hp : mrcProbs M i = [1] := by
    simp only [mrcProbs]
    rw [if_pos hsup]
  unfold mrcGet
  rw [hc, hp, initOne_get hu]
  rfl

/-- C5: for a matrix row `i` whose entries are all zero,
`MultipleRandomChoice.__getitem__(i)` returns `i` for every uniform sample
`u ∈ [0,1)`; and on the concrete matrix `[[0,1],[0,0]]` both `sample(1)` and
`sample(0)` always return 1. -/
theorem claimC5_zero_row_self_loop (M : Mat) (i : ℕ) (u : ℚ)
    (hu0 : 0 ≤ u) (hu1 : u < 1) (hzero : ∀ x ∈ M.getD i [], x = 0) :
    mrcGet M i u = i ∧
      mrcGet [[0,1],[0,0]] 1 u = 1 ∧ mrcGet [[0,1],[0,0]] 0 u = 1 := by
  refine ⟨mrcGet_zero_row M i u hu1 hzero,
    mrcGet_zero_row [[0,1],[0,0]] 1 u hu1 (by norm_num), ?_⟩
  have hc : mrcChoices [[0,1],[0,0]] 0 = [1] := by
    norm_num [mrcChoices, transitionProbs, l1NormalizeRow, rowSupport,
      List.range_succ]
  have hp : mrcProbs [[0,1],[0,0]] 0 = [1] := by
    norm_num [mrcProbs, transitionProbs, l1NormalizeRow, rowSupport,
      List.range_succ]
  unfold mrcGet
  rw [hc, hp, initOne_get hu1]
  rfl

theorem claimC5_witness :
    ((0 : ℚ) ≤ 0 ∧ (0 : ℚ) < 1 ∧ (∀ x ∈ ([[0,1],[0,0]] : Mat).getD 1 [], x = 0)) ∧
      (mrcGet [[0,1],[0,0]] 1 0 = 1 ∧
        mrcGet [[0,1],[0,0]] 1 0 = 1 ∧ mrcGet [[0,1],[0,0]] 0 0 = 1) :=
  ⟨⟨le_refl 0, by norm_num, by norm_num⟩,
    claimC5_zero_row_self_loop [[0,1],[0,0]] 1 0 (le_refl 0) (by norm_num)
      (by norm_num)⟩

/-- C9: for a matrix with non-negative entries, every weight vector the
row-wise sampler passes to `RandomChoice` has a strictly positive entry and
a strictly positive sum — the division by `p.sum()` in
`RandomChoice.__init__` never divides by zero. -/
theorem claimC9_positive_weight_vectors (M : Mat) (i : ℕ)
    (hM : ∀ row ∈ M, ∀ x ∈ row, 0 ≤ x) (hi : i < M.length) :
    (∃ x ∈ mrcProbs M i, 0 < x) ∧ 0 < (mrcProbs M i).sum := by
  constructor
  · obtain ⟨x, hx⟩ := List.exists_mem_of_ne_nil _ (mrcProbs_ne_nil M i)
    exact ⟨x, hx, mrcProbs_pos M i hM x hx⟩
  · exact mrcProbs_sum_pos M i hM

theorem claimC9_witness :
    ((∀ row ∈ ([[0,1],[0,0]] : Mat), ∀ x ∈ row, 0 ≤ x) ∧
        1 < ([[0,1],[0,0]] : Mat).length) ∧
      ((∃ x ∈ mrcProbs [[0,1],[0,0]] 1, 0 < x) ∧
        0 < (mrcProbs [[0,1],[0,0]] 1).sum) :=
  ⟨⟨by norm_num, by norm_num⟩,
    claimC9_positive_weight_vectors [[0,1],[0,0]] 1 (by norm_num) (by norm_num)⟩

/-- C10: `RandomChoice.get` on a weight vector with non-negative entries and
at least one positive entry returns an index below the vector's length, and
`MultipleRandomChoice.__getitem__` on a square non-negative matrix returns a
node index below the node count — the indexing into `choices` never goes out
of bounds. -/
theorem claimC10_indices_in_bounds :
    (∀ (p : List ℚ) (u : ℚ), (∀ x ∈ p, 0 ≤ x) → (∃ x ∈ p, 0 < x) → u < 1 →
        (RandomChoice.init p).get u < p.length) ∧
    (∀ (M : Mat) (i : ℕ) (u : ℚ),
        (∀ row ∈ M, row.length = M.length) →
        (∀ row ∈ M, ∀ x ∈ row, 0 ≤ x) →
        i < M.length → 0 ≤ u → u < 1 → mrcGet M i u < M.length) := by
  constructor
  · intro p u h0 h1 hu
    exact init_get_lt (ne_of_gt (sum_pos_of_exists_pos h0 h1)) hu
  · intro M i u hsq hM hi hu0 hu1
    have hmem := mrcGet_mem M i u hM hu1
    by_cases hsup : rowSupport ((transitionProbs M).getD i []) = []
    · simp only [mrcChoices] at hmem
      rw [if_pos hsup] at hmem
      rw [List.mem_singleton.mp hmem]
      exact hi
    · simp only [mrcChoices] at hmem
      rw [if_neg hsup] at hmem
      obtain ⟨hlt, -⟩ := mem_rowSupport.mp hmem
      rw [transitionProbs_getD, l1NormalizeRow_length,
        List.getD_eq_getElem _ _ hi] at hlt
      rw [hsq _ (List.getElem_mem hi)] at hlt
      exact hlt

theorem claimC10_witness :
    (RandomChoice.init [2,1]).get 0 < ([2,1] : List ℚ).length ∧
      mrcGet [[0,1],[1,0]] 1 0 < ([[0,1],[1,0]] : Mat).length := by
  constructor
  · exact claimC10_indices_in_bounds.1 [2,1] 0 (by norm_num)
      ⟨2, by norm_num, by norm_num⟩ (by norm_num)
  · exact claimC10_indices_in_bounds.2 [[0,1],[1,0]] 1 0 (by norm_num)
      (by norm_num) (by norm_num) (by norm_num) (by norm_num)

/-- C6: for a matrix with non-negative entries and a row `i` that has a
nonzero entry, the node `MultipleRandomChoice.__getitem__(i)` returns is a
column index whose matrix entry is strictly positive — zero-weight entries
are never selected. -/
theorem claimC6_targets_have_positive_weight (M : Mat) (i : ℕ) (u : ℚ)
    (hM : ∀ row ∈ M, ∀ x ∈ row, 0 ≤ x)
    (hrow : ∃ x ∈ M.getD i [], x ≠ 0)
    (hu0 : 0 ≤ u) (hu1 : u < 1) :
    0 < (M.getD i []).getD (mrcGet M i u) 0 := by
  obtain ⟨x, hxmem, hxne⟩ := hrow
  have hs : ((M.getD i []).map (fun y => |y|)).sum ≠ 0 := by
    intro h0
    exact hxne (absSum_eq_zero h0 x hxmem)
  have hrowN : (transitionProbs M).getD i [] =
      (M.getD i []).map (fun y => y / ((M.getD i []).map (fun y => |y|)).sum) := by
    rw [transitionProbs_getD]
    simp only [l1NormalizeRow]
    rw [if_neg hs]
  have hsup : rowSupport ((transitionProbs M).getD i []) ≠ [] := by
    obtain ⟨j, hjlt, hj⟩ := List.mem_iff_getElem.mp hxmem
    apply List.ne_nil_of_mem (a := j)
    rw [mem_rowSupport]
    constructor
    · rw [transitionProbs_getD, l1NormalizeRow_length]
      exact hjlt
    · rw [hrowN, getD_map_div, List.getD_eq_getElem _ _ hjlt, hj]
      exact div_ne_zero hxne hs
  have hmem := mrcGet_mem M i u hM hu1
  simp only [mrcChoices] at hmem
  rw [if_neg hsup] at hmem
  obtain ⟨hlt, hne⟩ := mem_rowSupport.mp hmem
  rw [hrowN, getD_map_div] at hne
  have hne0 : (M.getD i []).getD (mrcGet M i u) 0 ≠ 0 := by
    intro h0
    apply hne
    rw [h0, zero_div]
  exact lt_of_le_of_ne (getD_nonneg (getD_row_nonneg M i hM) (mrcGet M i u))
    (Ne.symm hne0)

theorem claimC6_witness :
    ((∀ row ∈ ([[0,1],[1,0]] : Mat), ∀ x ∈ row, 0 ≤ x) ∧
        (∃ x ∈ ([[0,1],[1,0]] : Mat).getD 0 [], x ≠ 0)) ∧
      0 < (([[0,1],[1,0]] : Mat).getD 0 []).getD (mrcGet [[0,1],[1,0]] 0 0) 0 :=
  ⟨⟨by norm_num, ⟨1, by norm_num, by norm_num⟩⟩,
    claimC6_targets_have_positive_weight [[0,1],[1,0]] 0 0 (by norm_num)
      ⟨1, by norm_num, by norm_num⟩ (by norm_num) (by norm_num)⟩

/-! ### Claim C8: the shuffle applies one permutation to all three arrays -/

theorem tile_length (l : List ℕ) : ∀ n, (tile l n).length = n * l.length := by
  intro n
  induction n with
  | zero => simp [tile]
  | succ m ih =>
      simp only [tile, List.replicate_succ, List.flatten_cons,
        List.length_append] at ih ⊢
      rw [ih]
      ring

theorem applyPerm_length {α : Type} (σ : List ℕ) (xs : List α) (d : α) :
    (applyPerm σ xs d).length = σ.length := by
  simp [applyPerm]

theorem makeBatch_eq (M : Mat) (nn bs : ℕ) (r : BatchRandoms) :
    makeBatch M nn bs r =
      (applyPerm r.shuf (makeBatchRaw M nn bs r).1 0,
        applyPerm r.shuf (makeBatchRaw M nn bs r).2.1 0,
        applyPerm r.shuf (makeBatchRaw M nn bs r).2.2 0) := rfl

theorem makeBatchRaw_fst (M : Mat) (nn bs : ℕ) (r : BatchRandoms) :
    (makeBatchRaw M nn bs r).1 = tile r.drawn (nn + 1) := rfl

theorem makeBatchRaw_snd_fst (M : Mat) (nn bs : ℕ) (r : BatchRandoms) :
    (makeBatchRaw M nn bs r).2.1 =
      (List.range bs).map
          (fun j => mrcGet M ((tile r.drawn (nn + 1)).getD j 0) (r.us.getD j 0))
        ++ r.negs := rfl

theorem makeBatchRaw_snd_snd (M : Mat) (nn bs : ℕ) (r : BatchRandoms) :
    (makeBatchRaw M nn bs r).2.2 =
      List.replicate bs (1 : ℚ) ++ List.replicate (bs * nn) (-1 : ℚ) := rfl

theorem applyPerm_zip {α β : Type} (σ : List ℕ) (xs : List α) (ys : List β)
    (dx : α) (dy : β) (h : ∀ k ∈ σ, k < xs.length)
    (hlen : ys.length = xs.length) :
    (applyPerm σ xs dx).zip (applyPerm σ ys dy) =
      applyPerm σ (xs.zip ys) (dx, dy) := by
  unfold applyPerm
  rw [List.zip_map']
  apply List.map_congr_left
  intro k hk
  have hkx := h k hk
  have hky : k < ys.length := by omega
  have hkz : k < (xs.zip ys).length := by
    rw [List.length_zip]
    omega
  rw [List.getD_eq_getElem _ _ hkx, List.getD_eq_getElem _ _ hky,
    List.getD_eq_getElem _ _ hkz, List.getElem_zip]

theorem applyPerm_perm {α : Type} (σ : List ℕ) (xs : List α) (d : α)
    (h : σ.Perm (List.range xs.length)) : (applyPerm σ xs d).Perm xs := by
  have h1 : (applyPerm σ xs d).Perm (applyPerm (List.range xs.length) xs d) :=
    h.map (fun k => xs.getD k d)
  have h2 : applyPerm (List.range xs.length) xs d = xs := by
    apply List.ext_getElem
    · simp [applyPerm]
    · intro i hi1 hi2
      simp only [applyPerm, List.getElem_map, List.getElem_range]
      exact List.getD_eq_getElem xs d hi2
  rwa [h2] at h1

theorem applyPerm_zip3_perm {L : ℕ} (σ : List ℕ) (xs ys : List ℕ)
    (zs : List ℚ) (hx : xs.length = L) (hy : ys.length = L)
    (hz : zs.length = L) (hσ : σ.Perm (List.range L)) :
    ((applyPerm σ xs 0).zip ((applyPerm σ ys 0).zip (applyPerm σ zs 0))).Perm
      (xs.zip (ys.zip zs)) := by
  have hkx : ∀ k ∈ σ, k < xs.length := by
    intro k hkσ
    have := List.mem_range.mp (hσ.mem_iff.mp hkσ)
    omega
  have hky : ∀ k ∈ σ, k < ys.length := by
    intro k hkσ
    have := List.mem_range.mp (hσ.mem_iff.mp hkσ)
    omega
  rw [applyPerm_zip σ ys zs 0 0 hky (by omega),
    applyPerm_zip σ xs (ys.zip zs) 0 (0, 0) hkx
      (by rw [List.length_zip]; omega)]
  apply applyPerm_perm
  have hzl : (xs.zip (ys.zip zs)).length = L := by
    rw [List.length_zip, List.length_zip]
    omega
  rw [hzl]
  exact hσ

/-- C8: every yielded batch consists of three sequences of length
`batch_size * (1 + number_negative)`, and the shuffle indexes all three raw
arrays by the same shuffled index array, so the multiset of
(source, target, label) triples is unchanged by the shuffle. -/
theorem claimC8_shuffle_preserves_triples (M : Mat) (nn bs : ℕ)
    (r : BatchRandoms) (hd : r.drawn.length = bs)
    (hneg : r.negs.length = bs * nn)
    (hσ : r.shuf.Perm (List.range (bs * (nn + 1)))) :
    (makeBatch M nn bs r).1.length = bs * (nn + 1) ∧
    (makeBatch M nn bs r).2.1.length = bs * (nn + 1) ∧
    (makeBatch M nn bs r).2.2.length = bs * (nn + 1) ∧
    ((makeBatch M nn bs r).1.zip
        ((makeBatch M nn bs r).2.1.zip (makeBatch M nn bs r).2.2)).Perm
      ((makeBatchRaw M nn bs r).1.zip
        ((makeBatchRaw M nn bs r).2.1.zip (makeBatchRaw M nn bs r).2.2)) := by
  have hσlen : r.shuf.length = bs * (nn + 1) := by
    have h := hσ.length_eq
    simpa using h
  have hu : (makeBatchRaw M nn bs r).1.length = bs * (nn + 1) := by
    rw [makeBatchRaw_fst, tile_length, hd]
    ring
  have hv : (makeBatchRaw M nn bs r).2.1.length = bs * (nn + 1) := by
    rw [makeBatchRaw_snd_fst, List.length_append, List.length_map,
      List.length_range, hneg]
    ring
  have hx : (makeBatchRaw M nn bs r).2.2.length = bs * (nn + 1) := by
    rw [makeBatchRaw_snd_snd, List.length_append, List.length_replicate,
      List.length_replicate]
    ring
  rw [makeBatch_eq]
  exact ⟨by rw [applyPerm_length, hσlen], by rw [applyPerm_length, hσlen],
    by rw [applyPerm_length, hσlen],
    applyPerm_zip3_perm r.shuf _ _ _ hu hv hx hσ⟩

theorem claimC8_witness :
    (([0] : List ℕ).length = 1 ∧ ([1] : List ℕ).length = 1 * 1 ∧
        ([1,0] : List ℕ).Perm (List.range (1 * (1 + 1)))) ∧
      ((makeBatch [[0,1],[1,0]] 1 1 ⟨[0],[0],[1],[1,0]⟩).1.zip
          ((makeBatch [[0,1],[1,0]] 1 1 ⟨[0],[0],[1],[1,0]⟩).2.1.zip
            (makeBatch [[0,1],[1,0]] 1 1 ⟨[0],[0],[1],[1,0]⟩).2.2)).Perm
        ((makeBatchRaw [[0,1],[1,0]] 1 1 ⟨[0],[0],[1],[1,0]⟩).1.zip
          ((makeBatchRaw [[0,1],[1,0]] 1 1 ⟨[0],[0],[1],[1,0]⟩).2.1.zip
            (makeBatchRaw [[0,1],[1,0]] 1 1 ⟨[0],[0],[1],[1,0]⟩).2.2)) :=
  ⟨⟨rfl, rfl, by decide⟩,
    (claimC8_shuffle_preserves_triples [[0,1],[1,0]] 1 1 ⟨[0],[0],[1],[1,0]⟩
      rfl rfl (by decide)).2.2.2⟩
